import Mathlib

/-!
Shallow embedding of the templating core in
`src/error_template_value_imputation.py`, together with proofs of the
specification claims about it.

Conventions of the embedding:
* Python strings are modelled as `List Char`; helper functions mirror
  `str.find` + slicing by splitting the remaining suffix at the first
  occurrence of a two-character delimiter.
* Python values reachable by the renderer are modelled by the closed
  variant `Value` (null, bool, int, str, list, dict, opaque object with
  named members).  Python `tuple` behaves exactly like `list` in every
  branch of the source, so both are modelled by `Value.list`; `float`
  behaves like `int` in every branch and is modelled by `Value.int`;
  `set` and `bytes` occur in no claim and are omitted.
* Loops that advance an index over the input are modelled by structural
  recursion on an explicit fuel argument, so that every definition is
  executable by kernel reduction; every theorem carries the (always
  satisfiable) fuel bound as a hypothesis, and the top-level entry points
  pass sufficient fuel.
* Exceptions are modelled with `Except`.
-/

namespace WorkatoTemplate

/-! ## Characters and trimming (Python `str.strip`) -/

/-- ASCII whitespace recognised by `str.strip` (Python additionally strips
some rare Unicode space characters; no claim involves them). -/
def isWs (c : Char) : Bool :=
  c = ' ' || c = '\t' || c = '\n' || c = '\r' || c = '\x0b' || c = '\x0c'

/-- Python `str.strip()`: drop leading and trailing whitespace. -/
def trimChars (l : List Char) : List Char :=
  ((l.dropWhile isWs).reverse.dropWhile isWs).reverse

/-! ## Finding a two-character delimiter (Python `str.find`)

`split2 a b s` returns `some (pre, post)` where `pre` is the text before
the first occurrence of the two-character pattern `a b` in `s` and `post`
the text after it, or `none` when the pattern does not occur.  This mirrors
`s.find(pat)` followed by slicing.  `hasPat a b s` decides whether the
pattern occurs at all. -/

def split2 (a b : Char) : List Char → Option (List Char × List Char)
  | c1 :: c2 :: rest =>
    if c1 = a ∧ c2 = b then some ([], rest)
    else
      match split2 a b (c2 :: rest) with
      | some (pre, post) => some (c1 :: pre, post)
      | none => none
  | _ => none

def hasPat (a b : Char) : List Char → Bool
  | c1 :: c2 :: rest => (c1 = a && c2 = b) || hasPat a b (c2 :: rest)
  | _ => false

/-! ## The instruction tree -/

/-- A parsed instruction.  The source stores plain strings (`str`),
`VariableToken` and `SectionToken` dataclass instances in one list. -/
inductive Token where
  | str (s : List Char)
  | variableToken (name : List Char)
  | sectionToken (name : List Char) (tokens : List Token) (inverted : Bool)

/-- Parse-time failures of `parse_template` (the source raises
`ValueError` with a distinguishing message for each). -/
inductive ParseError where
  | unclosedTag
  | mismatchedClosing (name : List Char)
  | unclosedSections (names : List (List Char))

/-! ## The parser (`parse_template`)

The source keeps a stack of insertion points (`stack`) plus a parallel
stack of open `SectionToken`s (`section_stack`), mutating the parent list
in place.  The pure rendition below keeps the root accumulator `acc`
separately and one frame `(name, inverted, children-so-far)` per open
section, innermost first; closing a section appends the finished
`sectionToken` to the enclosing insertion point, which yields the same
final tree. -/

/-- One open section: its name, inverted flag, and accumulated children. -/
abbrev Frame := List Char × Bool × List Token

/-- Append a finished token at the current insertion point: the innermost
open section if any, else the root accumulator. -/
def pushTok (tok : Token) (acc : List Token) (frames : List Frame) :
    List Token × List Frame :=
  match frames with
  | [] => (acc ++ [tok], [])
  | (n, inv, toks) :: fs => (acc, (n, inv, toks ++ [tok]) :: fs)

/-- End of input: the source raises `Unclosed sections: ...` listing the
still-open names in the order they were opened (`section_stack` order,
i.e. outermost first) if any section is open, else returns the tree. -/
def parseFinish (acc : List Token) (frames : List Frame) :
    Except ParseError (List Token) :=
  match frames with
  | [] => .ok acc
  | _ => .error (.unclosedSections ((frames.map (fun f => f.1)).reverse))

/-- The text found before a tag opener is pushed as a literal only when it
is non-empty (`if start > idx` in the source). -/
def pushPre (pre : List Char) (acc : List Token) (frames : List Frame) :
    List Token × List Frame :=
  if pre.isEmpty then (acc, frames) else pushTok (.str pre) acc frames

/-- The scanning loop of `parse_template`.  Each iteration finds the next
`\x7b\x7b`, emits the text before it as a literal, finds the following
`\x7d\x7d` (the source searches from the position of the opener; a match
cannot start on the two `\x7b` characters, so this equals searching after
them), trims the tag content and dispatches on its first character.
The fuel argument exceeds the length of the remaining input at every
reachable call, so the fuel-exhaustion branch is never taken. -/
def parseLoop : Nat → List Char → List Token → List Frame →
    Except ParseError (List Token)
  | _, [], acc, frames => parseFinish acc frames
  | 0, _ :: _, _, _ => .error .unclosedTag
  | fuel + 1, rem@(_ :: _), acc, frames =>
    match split2 '\x7b' '\x7b' rem with
    | none =>
      parseFinish (pushTok (.str rem) acc frames).1 (pushTok (.str rem) acc frames).2
    | some (pre, post) =>
      match split2 '\x7d' '\x7d' post with
      | none => .error .unclosedTag
      | some (tagRaw, rest) =>
        match trimChars tagRaw with
        | [] => parseLoop fuel rest (pushPre pre acc frames).1 (pushPre pre acc frames).2
        | m :: body =>
          if m = '#' then
            parseLoop fuel rest (pushPre pre acc frames).1
              ((trimChars body, false, []) :: (pushPre pre acc frames).2)
          else if m = '^' then
            parseLoop fuel rest (pushPre pre acc frames).1
              ((trimChars body, true, []) :: (pushPre pre acc frames).2)
          else if m = '/' then
            match (pushPre pre acc frames).2 with
            | [] => .error (.mismatchedClosing (trimChars body))
            | (n, inv, toks) :: fs =>
              if n = trimChars body then
                parseLoop fuel rest
                  (pushTok (.sectionToken n toks inv) (pushPre pre acc frames).1 fs).1
                  (pushTok (.sectionToken n toks inv) (pushPre pre acc frames).1 fs).2
              else .error (.mismatchedClosing (trimChars body))
          else
            parseLoop fuel rest
              (pushTok (.variableToken (m :: body)) (pushPre pre acc frames).1
                (pushPre pre acc frames).2).1
              (pushTok (.variableToken (m :: body)) (pushPre pre acc frames).1
                (pushPre pre acc frames).2).2

/-- Python `parse_template(template)`. -/
def parse_template (template : List Char) : Except ParseError (List Token) :=
  parseLoop (template.length + 1) template [] []

/-! ## The value domain

A closed variant covering every Python value the renderer inspects (see
the file header for the modelling of `tuple`, `float`, `set`, `bytes`).
`obj` models an opaque structured record whose named members are looked
up with `hasattr`/`getattr`; dunder attributes that Python primitives
technically expose are outside the modelled member sets (no claim
involves them). -/

inductive Value where
  | null
  | bool (b : Bool)
  | int (n : Int)
  | str (s : List Char)
  | list (xs : List Value)
  | dict (entries : List (List Char × Value))
  | obj (fields : List (List Char × Value))

/-- Python `is_truthy(value)`: the branches in source order.  The final catch-all
in the source is Python's native `bool(value)`: for a number that is
`n != 0`, and `True` for any other object. -/
def is_truthy : Value → Bool
  | .null => false
  | .bool b => b
  | .list xs => xs.length > 0
  | .dict es => es.length > 0
  | .str s => s.length > 0
  | .int n => n != 0
  | .obj _ => true

/-! ## Name resolution (`resolve_name`) -/

/-- Python `name.split(".")`: never empty, keeps empty segments. -/
def splitDot : List Char → List (List Char)
  | [] => [[]]
  | c :: rest =>
    if c = '.' then [] :: splitDot rest
    else
      match splitDot rest with
      | s :: ss => (c :: s) :: ss
      | [] => [[c]]

/-- First value bound to `key` in an association list (Python `dict`
lookup; keys of a Python dict are unique, so first-match is faithful). -/
def assocLookup (key : List Char) : List (List Char × Value) → Option Value
  | [] => none
  | (k, v) :: rest => if k = key then some v else assocLookup key rest

/-- The inner loop of `resolve_name`: resolve every segment starting from
one candidate context.  A segment resolves against a `dict` via key
lookup (`part in value`), or against a structured non-primitive value via
`hasattr`/`getattr`; any other situation sets `matched = False`. -/
def lookupPath : List (List Char) → Value → Option Value
  | [], v => some v
  | p :: ps, v =>
    match v with
    | .dict entries =>
      match assocLookup p entries with
      | some v2 => lookupPath ps v2
      | none => none
    | .obj fields =>
      match assocLookup p fields with
      | some v2 => lookupPath ps v2
      | none => none
    | _ => none

/-- The outer loop of `resolve_name`: `for context in
reversed(context_stack)` with the first full match returned, and `None`
(modelled as `Value.null`, exactly the conflation the source makes) when
the loop finishes without a match.  The argument is the already-reversed
stack, innermost context first. -/
def resolveLoop (parts : List (List Char)) : List Value → Value
  | [] => .null
  | c :: rest =>
    match lookupPath parts c with
    | some v => v
    | none => resolveLoop parts rest

/-- Python `resolve_name(name, context_stack)`.  The stack is in source order,
innermost (most recently pushed) last.  `context_stack[-1]` on an empty
stack raises `IndexError` in Python, modelled as `.error ()`; every other
path returns normally. -/
def resolve_name (name : List Char) (context_stack : List Value) :
    Except Unit Value :=
  if name = ['.'] then
    match context_stack.getLast? with
    | some v => .ok v
    | none => .error ()
  else
    .ok (resolveLoop (splitDot name) context_stack.reverse)

/-! ## Text conversion and escaping -/

/-- Python `html.escape(s)` with default `quote=True` replaces exactly
`&`, `<`, `>`, `"`, `'`; the replacement order in the library (`&` first)
makes the net effect a character-wise substitution. -/
def escapeChar (c : Char) : List Char :=
  if c = '&' then "&amp;".data
  else if c = '<' then "&lt;".data
  else if c = '>' then "&gt;".data
  else if c = '"' then "&quot;".data
  else if c = '\'' then "&#x27;".data
  else [c]

def escape (s : List Char) : List Char := (s.map escapeChar).flatten

/- Python `repr` for the modelled values, used by `str()` on containers.
Strings inside containers are shown in single quotes; the escaping
Python's `repr` applies to special characters inside the quotes is not
modelled (no claim renders a container).  `str()` of an opaque object
(`<module.Cls object at 0x...>`) contains a memory address and is
modelled by a fixed placeholder. -/
mutual

def pyRepr : Value → List Char
  | .null => "None".data
  | .bool true => "True".data
  | .bool false => "False".data
  | .int n => (toString n).data
  | .str s => '\'' :: s ++ ['\'']
  | .list xs => '[' :: pyReprList xs ++ [']']
  | .dict es => '\x7b' :: pyReprEntries es ++ ['\x7d']
  | .obj _ => "<object>".data

def pyReprList : List Value → List Char
  | [] => []
  | [v] => pyRepr v
  | v :: rest => pyRepr v ++ ", ".data ++ pyReprList rest

def pyReprEntries : List (List Char × Value) → List Char
  | [] => []
  | [(k, v)] => '\'' :: k ++ '\'' :: ':' :: ' ' :: pyRepr v
  | (k, v) :: rest =>
    '\'' :: k ++ '\'' :: ':' :: ' ' :: pyRepr v ++ ", ".data ++ pyReprEntries rest

end

/-- Python `str(value)` as applied by the renderer: strings unchanged,
everything else via `repr`-style conversion (for `None`, booleans and
numbers `str` and `repr` agree). -/
def pyStr (v : Value) : List Char :=
  match v with
  | .str s => s
  | _ => pyRepr v

/-! ## The renderer (`render_tokens`, `render`) -/

/-- The one runtime failure the renderer's code could raise aside from the
`TypeError` guard (which the `Token` variant makes unstatable): the
`IndexError` from `context_stack[-1]` on an empty stack, surfaced through
`resolve_name`.  `parseError` wraps parse-time failures for the
end-to-end `render`. -/
inductive RenderError where
  | parseError (e : ParseError)
  | indexError

/-- The value of a resolved variable as appended by the renderer:
`"" if value is None else escape(str(value))`. -/
def variableText (v : Value) : List Char :=
  match v with
  | .null => []
  | _ => escape (pyStr v)

/- Size measure for instruction trees: a couple of units per instruction,
plus the sizes of section children.  Used only to bound the renderer's
fuel. -/
mutual

def tokenCost : Token → Nat
  | .str _ => 1
  | .variableToken _ => 1
  | .sectionToken _ toks _ => 2 + tokensCost toks

def tokensCost : List Token → Nat
  | [] => 0
  | t :: ts => tokenCost t + tokensCost ts

end

/- `render_tokens(tokens, context_stack)`: walk the instructions in
order, concatenating the rendered pieces (the source collects them in a
list and joins).  `sectionChunk` is the body of the `SectionToken` case:
sections extend the stack locally — each list element, or the
mapping/truthy scalar itself, is pushed as `context_stack + [item]` for
that recursive call only; inverted sections pass `.copy()`, i.e. the same
contents.  Fuel decreases on every recursive call; any fuel above
`tokensCost tokens` suffices (proved below), so the fuel-exhaustion
branches are unreachable from the entry point. -/
mutual

def render_tokens : Nat → List Token → List Value → Except Unit (List Char)
  | _, [], _ => .ok []
  | 0, _ :: _, _ => .error ()
  | fuel + 1, .str s :: ts, ctx => do
    let rest ← render_tokens fuel ts ctx
    .ok (s ++ rest)
  | fuel + 1, .variableToken name :: ts, ctx => do
    let v ← resolve_name name ctx
    let rest ← render_tokens fuel ts ctx
    .ok (variableText v ++ rest)
  | fuel + 1, .sectionToken name toks inverted :: ts, ctx => do
    let v ← resolve_name name ctx
    let chunk ← sectionChunk fuel toks inverted ctx v
    let rest ← render_tokens fuel ts ctx
    .ok (chunk ++ rest)

def sectionChunk : Nat → List Token → Bool → List Value → Value →
    Except Unit (List Char)
  | 0, _, _, _, _ => .error ()
  | fuel + 1, toks, inverted, ctx, v =>
    if inverted then
      if !is_truthy v then render_tokens fuel toks ctx else .ok []
    else
      match v with
      | .list xs => do
        let outs ← xs.mapM (fun item => render_tokens fuel toks (ctx ++ [item]))
        .ok outs.flatten
      | .dict es => render_tokens fuel toks (ctx ++ [.dict es])
      | _ =>
        if is_truthy v then render_tokens fuel toks (ctx ++ [v]) else .ok []

end

/-- Python `render(template, data)`: parse, then render with `[data]` as the
initial context stack.  The source annotates `data` as a `Dict`, so the
root context is a `Value.dict`. -/
def render (template : List Char) (data : List (List Char × Value)) :
    Except RenderError (List Char) :=
  match parse_template template with
  | .error e => .error (.parseError e)
  | .ok toks =>
    match render_tokens (tokensCost toks + 1) toks [Value.dict data] with
    | .ok s => .ok s
    | .error _ => .error .indexError

/-! ## Specification-side predicates and template families

These express the claims' hypotheses independently of the scanning loop:
a template "contains a `\x7b\x7b` marker with no following `\x7d\x7d`",
simple well-formedness of section names, and the template family used to
state the unclosed-sections enumeration. -/

/-- Predicate `hasBadOpen s`: some occurrence of `\x7b\x7b` in `s` has no occurrence
of `\x7d\x7d` anywhere after it (the claims' "a `\x7b\x7b` marker has no
following `\x7d\x7d`"; a closer cannot overlap the opener's characters,
so searching after the opener is equivalent to the source's search from
the opener's position). -/
def hasBadOpen : List Char → Bool
  | c1 :: c2 :: rest =>
    (c1 = '\x7b' && c2 = '\x7b' && !hasPat '\x7d' '\x7d' rest) || hasBadOpen (c2 :: rest)
  | _ => false

/-- A section/tag name containing no whitespace and no closing brace, so
that tag boundaries and trimming leave it intact. -/
def goodName (n : List Char) : Bool :=
  n.all (fun c => !isWs c && !(c = '\x7d'))

/-- An opening section tag for `name`. -/
def openSection (name : List Char) : List Char :=
  '\x7b' :: '\x7b' :: '#' :: (name ++ ['\x7d', '\x7d'])

/-- A template consisting only of opening section tags, one per name. -/
def templUnclosed (names : List (List Char)) : List Char :=
  (names.map openSection).flatten

/-- The success side of the parser contract, transcribed from the
specification text: a template parses when every tag opener has a
following closer and the closing-tag discipline holds — each closing tag
names the innermost open section, and no section remains open once the
input is exhausted.  The check walks the tags exactly as the
specification describes the scan, but tracks only the stack of
open-section names, nothing of the instruction tree being built. -/
def tagScanOk : Nat → List Char → List (List Char) → Bool
  | _, [], stack => stack.isEmpty
  | 0, _ :: _, _ => false
  | fuel + 1, rem@(_ :: _), stack =>
    match split2 '\x7b' '\x7b' rem with
    | none => stack.isEmpty
    | some (_, post) =>
      match split2 '\x7d' '\x7d' post with
      | none => false
      | some (tagRaw, rest) =>
        match trimChars tagRaw with
        | [] => tagScanOk fuel rest stack
        | m :: body =>
          if m = '#' then tagScanOk fuel rest (trimChars body :: stack)
          else if m = '^' then tagScanOk fuel rest (trimChars body :: stack)
          else if m = '/' then
            match stack with
            | [] => false
            | n :: ns => if n = trimChars body then tagScanOk fuel rest ns else false
          else tagScanOk fuel rest stack

/-- The tag-discipline check on a whole template, at the fuel used by
`parse_template`. -/
def tagDisciplineOk (template : List Char) : Bool :=
  tagScanOk (template.length + 1) template []

/-- The name-resolution contract transcribed from the specification text:
split the name on `.`; walk the context stack from innermost to
outermost; the first context from which the entire segment path resolves
wins; if none does, the result is "not found" (`None`); a name that is
exactly `.` yields the innermost context with no path lookup. -/
def resolveNameSpec (name : List Char) (stack : List Value) : Except Unit Value :=
  if name = ['.'] then
    match stack.getLast? with
    | some v => .ok v
    | none => .error ()
  else
    .ok ((stack.reverse.findSome? (fun c => lookupPath (splitDot name) c)).getD .null)


/-! ## Properties of the delimiter scanner -/

theorem hasPat_nil (a b : Char) : hasPat a b [] = false := rfl

theorem hasPat_single (a b c : Char) : hasPat a b [c] = false := rfl

theorem hasPat_cons₂ (a b c1 c2 : Char) (w : List Char) :
    hasPat a b (c1 :: c2 :: w) = ((c1 = a && c2 = b) || hasPat a b (c2 :: w)) := rfl

theorem split2_nil (a b : Char) : split2 a b [] = none := rfl

theorem split2_single (a b c : Char) : split2 a b [c] = none := rfl

theorem split2_cons₂ (a b c1 c2 : Char) (w : List Char) :
    split2 a b (c1 :: c2 :: w) =
      if c1 = a ∧ c2 = b then some ([], w)
      else
        match split2 a b (c2 :: w) with
        | some (pre, post) => some (c1 :: pre, post)
        | none => none := rfl

/-- A successful split decomposes the string around the delimiter. -/
theorem split2_eq_append {a b : Char} : ∀ {s pre post : List Char},
    split2 a b s = some (pre, post) → s = pre ++ a :: b :: post := by
  intro s
  induction s with
  | nil => intro pre post h; simp [split2_nil] at h
  | cons c1 tail ih =>
    intro pre post h
    cases tail with
    | nil => simp [split2_single] at h
    | cons c2 rest =>
      rw [split2_cons₂] at h
      by_cases hc : c1 = a ∧ c2 = b
      · rw [if_pos hc] at h
        obtain ⟨rfl, rfl⟩ := hc
        simp only [Option.some.injEq, Prod.mk.injEq] at h
        obtain ⟨rfl, rfl⟩ := h
        simp
      · rw [if_neg hc] at h
        cases hsp : split2 a b (c2 :: rest) with
        | none => rw [hsp] at h; simp at h
        | some pr =>
          obtain ⟨pre2, post2⟩ := pr
          rw [hsp] at h
          simp only [Option.some.injEq, Prod.mk.injEq] at h
          obtain ⟨rfl, rfl⟩ := h
          have hrec := ih hsp
          simp [hrec]

/-- A non-matching position contributes `false` to `hasPat`. -/
theorem pat_head_false {a b c1 c2 : Char} (hc : ¬(c1 = a ∧ c2 = b)) :
    (c1 = a && c2 = b) = false := by
  by_cases h1 : c1 = a
  · by_cases h2 : c2 = b
    · exact absurd ⟨h1, h2⟩ hc
    · simp [h1, h2]
  · simp [h1]

/-- The split consumes the first occurrence: there is no earlier one, not
even overlapping the prefix boundary. -/
theorem split2_first {a b : Char} : ∀ {s pre post : List Char},
    split2 a b s = some (pre, post) → hasPat a b (pre ++ [a]) = false := by
  intro s
  induction s with
  | nil => intro pre post h; simp [split2_nil] at h
  | cons c1 tail ih =>
    intro pre post h
    cases tail with
    | nil => simp [split2_single] at h
    | cons c2 rest =>
      rw [split2_cons₂] at h
      by_cases hc : c1 = a ∧ c2 = b
      · rw [if_pos hc] at h
        simp only [Option.some.injEq, Prod.mk.injEq] at h
        obtain ⟨rfl, rfl⟩ := h
        simp [hasPat_single]
      · rw [if_neg hc] at h
        cases hsp : split2 a b (c2 :: rest) with
        | none => rw [hsp] at h; simp at h
        | some pr =>
          obtain ⟨pre2, post2⟩ := pr
          rw [hsp] at h
          simp only [Option.some.injEq, Prod.mk.injEq] at h
          obtain ⟨rfl, rfl⟩ := h
          have hrec := ih hsp
          have hhead := split2_eq_append hsp
          cases pre2 with
          | nil =>
            simp only [List.nil_append] at hhead
            have hc2 : c2 = a := (List.cons.injEq _ _ _ _).mp hhead |>.1
            rw [List.cons_append, List.nil_append, hasPat_cons₂, hasPat_single,
              Bool.or_false]
            exact pat_head_false (by rw [hc2] at hc; exact hc)
          | cons d pre3 =>
            have hd : c2 = d := (List.cons.injEq _ _ _ _).mp hhead |>.1
            rw [List.cons_append, List.cons_append, hasPat_cons₂]
            rw [List.cons_append] at hrec
            rw [hrec, Bool.or_false]
            exact pat_head_false (by rw [hd] at hc; exact hc)

/-- Failure of the split means the pattern does not occur. -/
theorem split2_eq_none_iff {a b : Char} : ∀ {s : List Char},
    split2 a b s = none ↔ hasPat a b s = false := by
  intro s
  induction s with
  | nil => simp [split2_nil, hasPat_nil]
  | cons c1 tail ih =>
    cases tail with
    | nil => simp [split2_single, hasPat_single]
    | cons c2 rest =>
      rw [split2_cons₂, hasPat_cons₂]
      by_cases hc : c1 = a ∧ c2 = b
      · rw [if_pos hc]
        obtain ⟨rfl, rfl⟩ := hc
        simp
      · rw [if_neg hc]
        cases hsp : split2 a b (c2 :: rest) with
        | none =>
          simp only [hsp, true_iff] at ih ⊢
          simp only [ih, Bool.or_false]
          simp only [not_and] at hc
          by_cases h1 : c1 = a
          · simp [h1, hc h1]
          · simp [h1]
        | some pr =>
          obtain ⟨pre2, post2⟩ := pr
          constructor
          · intro h; simp at h
          · intro h
            rw [Bool.or_eq_false_iff] at h
            have : split2 a b (c2 :: rest) = none := ih.mpr h.2
            rw [hsp] at this
            simp at this

/-- Splitting at a delimiter placed after a prefix free of the pattern's
first character. -/
theorem split2_append_left {a b : Char} : ∀ (u v : List Char),
    (∀ c ∈ u, ¬ c = a) → split2 a b (u ++ a :: b :: v) = some (u, v) := by
  intro u
  induction u with
  | nil =>
    intro v _
    rw [List.nil_append, split2_cons₂, if_pos ⟨rfl, rfl⟩]
  | cons c u' ih =>
    intro v hu
    have hca : ¬ c = a := hu c (by simp)
    have hu' : ∀ c' ∈ u', ¬ c' = a := fun c' hc' => hu c' (by simp [hc'])
    have hrec := ih v hu'
    cases u' with
    | nil =>
      rw [List.nil_append] at hrec
      rw [List.cons_append, List.nil_append, split2_cons₂]
      rw [if_neg (by intro hcc; exact hca hcc.1)]
      rw [hrec]
    | cons d u'' =>
      rw [List.cons_append] at hrec
      rw [List.cons_append, List.cons_append, split2_cons₂]
      rw [if_neg (by intro hcc; exact hca hcc.1)]
      rw [hrec]

/-- The pattern occurs in any string that spells it out. -/
theorem hasPat_append (a b : Char) : ∀ (u v : List Char),
    hasPat a b (u ++ a :: b :: v) = true := by
  intro u
  induction u with
  | nil => intro v; rw [List.nil_append, hasPat_cons₂]; simp
  | cons c u' ih =>
    intro v
    cases u' with
    | nil =>
      rw [List.cons_append, List.nil_append, hasPat_cons₂]
      have := ih v
      rw [List.nil_append] at this
      simp [this]
    | cons d u'' =>
      rw [List.cons_append, List.cons_append, hasPat_cons₂]
      have := ih v
      rw [List.cons_append] at this
      simp [this]

/-! ## Properties of `hasBadOpen` -/

theorem hasBadOpen_nil : hasBadOpen [] = false := rfl

theorem hasBadOpen_single (c : Char) : hasBadOpen [c] = false := rfl

theorem hasBadOpen_cons₂ (c1 c2 : Char) (w : List Char) :
    hasBadOpen (c1 :: c2 :: w) =
      ((c1 = '\x7b' && c2 = '\x7b' && !hasPat '\x7d' '\x7d' w) || hasBadOpen (c2 :: w)) := rfl

/-- A string with no opener has no unclosed opener. -/
theorem noOpen_noBad : ∀ {s : List Char},
    hasPat '\x7b' '\x7b' s = false → hasBadOpen s = false := by
  intro s
  induction s with
  | nil => intro _; rfl
  | cons c1 tail ih =>
    cases tail with
    | nil => intro _; rfl
    | cons c2 rest =>
      intro h
      rw [hasPat_cons₂, Bool.or_eq_false_iff] at h
      rw [hasBadOpen_cons₂, Bool.or_eq_false_iff]
      exact ⟨by rw [h.1, Bool.false_and], ih h.2⟩

/-- Scanning over a prefix that contains no opener (not even one
straddling its right edge) does not change `hasBadOpen`. -/
theorem hasBadOpen_append_pre : ∀ (pre w : List Char),
    hasPat '\x7b' '\x7b' (pre ++ ['\x7b']) = false →
    hasBadOpen (pre ++ '\x7b' :: w) = hasBadOpen ('\x7b' :: w) := by
  intro pre
  induction pre with
  | nil => intro w _; rw [List.nil_append]
  | cons c pre' ih =>
    intro w h
    cases pre' with
    | nil =>
      rw [List.cons_append, List.nil_append] at h
      rw [hasPat_cons₂, hasPat_single, Bool.or_false] at h
      rw [List.cons_append, List.nil_append, hasBadOpen_cons₂]
      rw [h, Bool.false_and, Bool.false_or]
    | cons d pre'' =>
      rw [List.cons_append, List.cons_append, hasPat_cons₂] at h
      rw [Bool.or_eq_false_iff] at h
      rw [List.cons_append, List.cons_append, hasBadOpen_cons₂]
      rw [h.1, Bool.false_and, Bool.false_or]
      have hrec := ih w (by rw [List.cons_append]; exact h.2)
      rw [List.cons_append] at hrec
      exact hrec

/-- Two closer characters at the head do not affect `hasBadOpen`. -/
theorem hasBadOpen_close_head (rest : List Char) :
    hasBadOpen ('\x7d' :: '\x7d' :: rest) = hasBadOpen rest := by
  rw [hasBadOpen_cons₂]
  have h1 : (('\x7d' : Char) = '\x7b') = False := by simp
  cases rest with
  | nil => simp [h1, hasBadOpen_single, hasBadOpen_nil]
  | cons r rest' => simp [h1, hasBadOpen_cons₂]

/-- Scanning over a segment that ends in a closer does not change
`hasBadOpen`: every opener inside it is followed by that closer. -/
theorem hasBadOpen_append_close : ∀ (u rest : List Char),
    hasBadOpen (u ++ '\x7d' :: '\x7d' :: rest) = hasBadOpen rest := by
  intro u
  induction u with
  | nil =>
    intro rest
    rw [List.nil_append]
    exact hasBadOpen_close_head rest
  | cons c u' ih =>
    intro rest
    cases u' with
    | nil =>
      rw [List.cons_append, List.nil_append, hasBadOpen_cons₂]
      rw [hasBadOpen_close_head rest]
      have h1 : (('\x7d' : Char) = '\x7b') = False := by simp
      simp [h1]
    | cons d u'' =>
      rw [List.cons_append, List.cons_append, hasBadOpen_cons₂]
      have hpat : hasPat '\x7d' '\x7d' (u'' ++ '\x7d' :: '\x7d' :: rest) = true :=
        hasPat_append _ _ _ _
      rw [hpat]
      have hrec := ih rest
      rw [List.cons_append] at hrec
      rw [hrec]
      simp

/-- Consuming one complete tag during the scan preserves `hasBadOpen`:
the tag's closer closes every opener at or before it. -/
theorem hasBadOpen_step (pre tagRaw rest : List Char)
    (hpre : hasPat '\x7b' '\x7b' (pre ++ ['\x7b']) = false) :
    hasBadOpen (pre ++ '\x7b' :: '\x7b' :: (tagRaw ++ '\x7d' :: '\x7d' :: rest)) =
      hasBadOpen rest := by
  rw [hasBadOpen_append_pre pre ('\x7b' :: (tagRaw ++ '\x7d' :: '\x7d' :: rest)) hpre]
  rw [hasBadOpen_cons₂]
  rw [hasPat_append '\x7d' '\x7d' tagRaw rest]
  simp only [Bool.not_true, Bool.and_false, Bool.false_or]
  have := hasBadOpen_append_close ('\x7b' :: tagRaw) rest
  rw [List.cons_append] at this
  exact this

/-- An opener whose remainder has no closer is an unclosed opener. -/
theorem hasBadOpen_of_unclosed (pre post : List Char)
    (hpre : hasPat '\x7b' '\x7b' (pre ++ ['\x7b']) = false)
    (hpost : hasPat '\x7d' '\x7d' post = false) :
    hasBadOpen (pre ++ '\x7b' :: '\x7b' :: post) = true := by
  rw [hasBadOpen_append_pre pre ('\x7b' :: post) hpre, hasBadOpen_cons₂, hpost]
  simp

/-- A string with an unclosed opener contains an opener. -/
theorem hasBadOpen_hasPat : ∀ {s : List Char},
    hasBadOpen s = true → hasPat '\x7b' '\x7b' s = true := by
  intro s h
  by_cases hp : hasPat '\x7b' '\x7b' s = true
  · exact hp
  · rw [noOpen_noBad (Bool.eq_false_iff.mpr hp)] at h
    exact absurd h (by simp)

/-! ## Trimming lemmas -/

theorem dropWhile_eq_self_of_all (p : Char → Bool) (l : List Char)
    (h : ∀ c ∈ l, p c = false) : l.dropWhile p = l := by
  cases l with
  | nil => rfl
  | cons c t =>
    rw [List.dropWhile_cons, h c (by simp)]
    simp

theorem trimChars_of_noWs (l : List Char) (h : ∀ c ∈ l, isWs c = false) :
    trimChars l = l := by
  unfold trimChars
  rw [dropWhile_eq_self_of_all isWs l h]
  rw [dropWhile_eq_self_of_all isWs l.reverse
    (fun c hc => h c (List.mem_reverse.mp hc))]
  exact List.reverse_reverse l

theorem goodName_noWs {n : List Char} (h : goodName n = true) :
    ∀ c ∈ n, isWs c = false := by
  intro c hc
  have := (List.all_eq_true.mp h) c hc
  simp only [Bool.and_eq_true, Bool.not_eq_true'] at this
  exact this.1

theorem goodName_noClose {n : List Char} (h : goodName n = true) :
    ∀ c ∈ n, ¬ c = '\x7d' := by
  intro c hc
  have := (List.all_eq_true.mp h) c hc
  simp only [Bool.and_eq_true, Bool.not_eq_true'] at this
  intro hce
  rw [hce] at this
  simpa using this.2

/-! ## Equations and invariants of the parsing loop -/

theorem parseLoop_nil (fuel : Nat) (acc : List Token) (frames : List Frame) :
    parseLoop fuel [] acc frames = parseFinish acc frames := by
  cases fuel <;> rfl

theorem parseLoop_zero (c : Char) (w : List Char) (acc : List Token)
    (frames : List Frame) : parseLoop 0 (c :: w) acc frames = .error .unclosedTag := rfl

theorem parseLoop_succ (fuel : Nat) (c : Char) (w : List Char) (acc : List Token)
    (frames : List Frame) :
    parseLoop (fuel + 1) (c :: w) acc frames =
      match split2 '\x7b' '\x7b' (c :: w) with
      | none =>
        parseFinish (pushTok (.str (c :: w)) acc frames).1
          (pushTok (.str (c :: w)) acc frames).2
      | some (pre, post) =>
        match split2 '\x7d' '\x7d' post with
        | none => .error .unclosedTag
        | some (tagRaw, rest) =>
          match trimChars tagRaw with
          | [] => parseLoop fuel rest (pushPre pre acc frames).1 (pushPre pre acc frames).2
          | m :: body =>
            if m = '#' then
              parseLoop fuel rest (pushPre pre acc frames).1
                ((trimChars body, false, []) :: (pushPre pre acc frames).2)
            else if m = '^' then
              parseLoop fuel rest (pushPre pre acc frames).1
                ((trimChars body, true, []) :: (pushPre pre acc frames).2)
            else if m = '/' then
              match (pushPre pre acc frames).2 with
              | [] => .error (.mismatchedClosing (trimChars body))
              | (n, inv, toks) :: fs =>
                if n = trimChars body then
                  parseLoop fuel rest
                    (pushTok (.sectionToken n toks inv) (pushPre pre acc frames).1 fs).1
                    (pushTok (.sectionToken n toks inv) (pushPre pre acc frames).1 fs).2
                else .error (.mismatchedClosing (trimChars body))
            else
              parseLoop fuel rest
                (pushTok (.variableToken (m :: body)) (pushPre pre acc frames).1
                  (pushPre pre acc frames).2).1
                (pushTok (.variableToken (m :: body)) (pushPre pre acc frames).1
                  (pushPre pre acc frames).2).2 := rfl

/-- The finish step `parseFinish` never reports an unclosed tag. -/
theorem parseFinish_ne_unclosedTag (acc : List Token) (frames : List Frame) :
    parseFinish acc frames ≠ .error .unclosedTag := by
  unfold parseFinish
  cases frames <;> simp

/-- Length bookkeeping for one scanning step. -/
theorem parse_step_length {c : Char} {w pre post tagRaw rest : List Char}
    (hsp : split2 '\x7b' '\x7b' (c :: w) = some (pre, post))
    (hcl : split2 '\x7d' '\x7d' post = some (tagRaw, rest)) :
    rest.length + 4 ≤ (c :: w).length := by
  have h1 := split2_eq_append hsp
  have h2 := split2_eq_append hcl
  have e1 : (c :: w).length = pre.length + (post.length + 2) := by
    rw [h1]; simp [List.length_append]; try omega
  have e2 : post.length = tagRaw.length + (rest.length + 2) := by
    rw [h2]; simp [List.length_append]; try omega
  omega

/-- The scan transfers `hasBadOpen` across one consumed tag. -/
theorem hasBadOpen_parse_step {c : Char} {w pre post tagRaw rest : List Char}
    (hsp : split2 '\x7b' '\x7b' (c :: w) = some (pre, post))
    (hcl : split2 '\x7d' '\x7d' post = some (tagRaw, rest)) :
    hasBadOpen (c :: w) = hasBadOpen rest := by
  have h1 := split2_eq_append hsp
  have h2 := split2_eq_append hcl
  rw [h1, h2]
  exact hasBadOpen_step pre tagRaw rest (split2_first hsp)

/-- If the loop reports an unclosed tag, the remaining input has an opener
with no later closer. -/
theorem parseLoop_unclosedTag_badOpen : ∀ (fuel : Nat) (rem : List Char)
    (acc : List Token) (frames : List Frame), rem.length < fuel →
    parseLoop fuel rem acc frames = .error .unclosedTag → hasBadOpen rem = true := by
  intro fuel
  induction fuel with
  | zero => intro rem acc frames hlen; omega
  | succ f ih =>
    intro rem acc frames hlen hres
    cases rem with
    | nil =>
      rw [parseLoop_nil] at hres
      exact absurd hres (parseFinish_ne_unclosedTag _ _)
    | cons c w =>
      rw [parseLoop_succ] at hres
      split at hres
      · exact absurd hres (parseFinish_ne_unclosedTag _ _)
      · rename_i pre post hsp
        split at hres
        · rename_i hcl
          rw [split2_eq_append hsp]
          exact hasBadOpen_of_unclosed pre post (split2_first hsp)
            (split2_eq_none_iff.mp hcl)
        · rename_i tagRaw rest hcl
          have hlen2 : rest.length < f := by
            have := parse_step_length hsp hcl
            simp only [List.length_cons] at this hlen
            omega
          rw [hasBadOpen_parse_step hsp hcl]
          split at hres
          · exact ih rest _ _ hlen2 hres
          · split at hres
            · exact ih rest _ _ hlen2 hres
            · split at hres
              · exact ih rest _ _ hlen2 hres
              · split at hres
                · split at hres
                  · simp at hres
                  · split at hres
                    · exact ih rest _ _ hlen2 hres
                    · simp at hres
                · exact ih rest _ _ hlen2 hres

/-- Conversely, if the remaining input has an opener with no later closer,
the loop fails: with the unclosed-tag error, or with a mismatched-closing
error raised at an earlier stray closing tag. -/
theorem parseLoop_badOpen_fails : ∀ (fuel : Nat) (rem : List Char)
    (acc : List Token) (frames : List Frame), rem.length < fuel →
    hasBadOpen rem = true →
    parseLoop fuel rem acc frames = .error .unclosedTag ∨
      ∃ n, parseLoop fuel rem acc frames = .error (.mismatchedClosing n) := by
  intro fuel
  induction fuel with
  | zero => intro rem acc frames hlen; omega
  | succ f ih =>
    intro rem acc frames hlen hbad
    cases rem with
    | nil => rw [hasBadOpen_nil] at hbad; exact absurd hbad (by simp)
    | cons c w =>
      rw [parseLoop_succ]
      split
      · rename_i hsp
        rw [noOpen_noBad (split2_eq_none_iff.mp hsp)] at hbad
        exact absurd hbad (by simp)
      · rename_i pre post hsp
        split
        · left; rfl
        · rename_i tagRaw rest hcl
          have hlen2 : rest.length < f := by
            have := parse_step_length hsp hcl
            simp only [List.length_cons] at this hlen
            omega
          have hbad2 : hasBadOpen rest = true := by
            rw [← hasBadOpen_parse_step hsp hcl]; exact hbad
          split
          · exact ih rest _ _ hlen2 hbad2
          · split
            · exact ih rest _ _ hlen2 hbad2
            · split
              · exact ih rest _ _ hlen2 hbad2
              · split
                · split
                  · right; exact ⟨_, rfl⟩
                  · split
                    · exact ih rest _ _ hlen2 hbad2
                    · right; exact ⟨_, rfl⟩
                · exact ih rest _ _ hlen2 hbad2

theorem parseLoop_succ' (fuel : Nat) (rem : List Char) (hne : rem ≠ [])
    (acc : List Token) (frames : List Frame) :
    parseLoop (fuel + 1) rem acc frames =
      match split2 '\x7b' '\x7b' rem with
      | none =>
        parseFinish (pushTok (.str rem) acc frames).1 (pushTok (.str rem) acc frames).2
      | some (pre, post) =>
        match split2 '\x7d' '\x7d' post with
        | none => .error .unclosedTag
        | some (tagRaw, rest) =>
          match trimChars tagRaw with
          | [] => parseLoop fuel rest (pushPre pre acc frames).1 (pushPre pre acc frames).2
          | m :: body =>
            if m = '#' then
              parseLoop fuel rest (pushPre pre acc frames).1
                ((trimChars body, false, []) :: (pushPre pre acc frames).2)
            else if m = '^' then
              parseLoop fuel rest (pushPre pre acc frames).1
                ((trimChars body, true, []) :: (pushPre pre acc frames).2)
            else if m = '/' then
              match (pushPre pre acc frames).2 with
              | [] => .error (.mismatchedClosing (trimChars body))
              | (n, inv, toks) :: fs =>
                if n = trimChars body then
                  parseLoop fuel rest
                    (pushTok (.sectionToken n toks inv) (pushPre pre acc frames).1 fs).1
                    (pushTok (.sectionToken n toks inv) (pushPre pre acc frames).1 fs).2
                else .error (.mismatchedClosing (trimChars body))
            else
              parseLoop fuel rest
                (pushTok (.variableToken (m :: body)) (pushPre pre acc frames).1
                  (pushPre pre acc frames).2).1
                (pushTok (.variableToken (m :: body)) (pushPre pre acc frames).1
                  (pushPre pre acc frames).2).2 := by
  cases rem with
  | nil => exact absurd rfl hne
  | cons c w => exact parseLoop_succ fuel c w acc frames

theorem pushPre_nil (acc : List Token) (frames : List Frame) :
    pushPre [] acc frames = (acc, frames) := rfl

theorem pushPre_snd_nil (pre : List Char) (acc : List Token) :
    (pushPre pre acc []).2 = [] := by
  unfold pushPre pushTok
  split <;> rfl

/-- Splitting a delimiter sitting at the very front. -/
theorem split2_self (a b : Char) (w : List Char) :
    split2 a b (a :: b :: w) = some ([], w) := by
  rw [split2_cons₂, if_pos ⟨rfl, rfl⟩]

theorem trimChars_marker (m : Char) (n : List Char) (hm : isWs m = false)
    (hn : goodName n = true) : trimChars (m :: n) = m :: n := by
  apply trimChars_of_noWs
  intro c hc
  rcases List.mem_cons.mp hc with h | h
  · rw [h]; exact hm
  · exact goodName_noWs hn c h

theorem goodName_split2_close (n : List Char) (hn : goodName n = true)
    (m : Char) (hm : ¬ m = '\x7d') (rest : List Char) :
    split2 '\x7d' '\x7d' (m :: (n ++ '\x7d' :: '\x7d' :: rest)) = some (m :: n, rest) := by
  have h := split2_append_left (a := '\x7d') (b := '\x7d') (m :: n) rest
    (by
      intro c hc
      rcases List.mem_cons.mp hc with h | h
      · rw [h]; exact hm
      · exact goodName_noClose hn c h)
  rw [List.cons_append] at h
  exact h

/-- One scanning step over an opening section tag at the head of input. -/
theorem parseLoop_open_step (f : Nat) (inverted : Bool) (n rest : List Char)
    (acc : List Token) (frames : List Frame) (hn : goodName n = true) :
    parseLoop (f + 1)
      ('\x7b' :: '\x7b' :: ((if inverted then '^' else '#') :: (n ++ '\x7d' :: '\x7d' :: rest)))
      acc frames =
      parseLoop f rest acc ((n, inverted, []) :: frames) := by
  have hm : isWs (if inverted then '^' else '#') = false := by cases inverted <;> rfl
  have hmm : ¬ (if inverted then '^' else '#') = '\x7d' := by cases inverted <;> decide
  rw [parseLoop_succ]
  split
  · rename_i hsp
    rw [split2_self] at hsp
    simp at hsp
  · rename_i pre post hsp
    rw [split2_self] at hsp
    simp only [Option.some.injEq, Prod.mk.injEq] at hsp
    obtain ⟨h1, h2⟩ := hsp
    subst h1; subst h2
    split
    · rename_i hcl
      rw [goodName_split2_close n hn _ hmm rest] at hcl
      simp at hcl
    · rename_i tagRaw rest2 hcl
      rw [goodName_split2_close n hn _ hmm rest] at hcl
      simp only [Option.some.injEq, Prod.mk.injEq] at hcl
      obtain ⟨h3, h4⟩ := hcl
      subst h3; subst h4
      split
      · rename_i htc
        rw [trimChars_marker _ n hm hn] at htc
        simp at htc
      · rename_i m body htc
        rw [trimChars_marker _ n hm hn] at htc
        injection htc with h5 h6
        subst h5; subst h6
        cases inverted with
        | false =>
          rw [show (if (false : Bool) = true then '^' else '#') = '#' from rfl]
          rw [if_pos rfl, pushPre_nil, trimChars_of_noWs n (goodName_noWs hn)]
        | true =>
          rw [show (if (true : Bool) = true then '^' else '#') = '^' from rfl]
          rw [if_neg (by decide : ¬ ('^' : Char) = '#'), if_pos rfl, pushPre_nil,
            trimChars_of_noWs n (goodName_noWs hn)]

/-- One scanning step over a closing tag at the head of input: an empty
open-section stack or a name mismatch is a fatal mismatched-closing error;
a match pops the section and appends it to the enclosing insertion
point. -/
theorem parseLoop_close_step (f : Nat) (n rest : List Char)
    (acc : List Token) (frames : List Frame) (hn : goodName n = true) :
    parseLoop (f + 1) ('\x7b' :: '\x7b' :: ('/' :: (n ++ '\x7d' :: '\x7d' :: rest))) acc frames =
      match frames with
      | [] => .error (.mismatchedClosing n)
      | (nm, inv, toks) :: fs =>
        if nm = n then
          parseLoop f rest (pushTok (.sectionToken nm toks inv) acc fs).1
            (pushTok (.sectionToken nm toks inv) acc fs).2
        else .error (.mismatchedClosing n) := by
  rw [parseLoop_succ]
  split
  · rename_i hsp
    rw [split2_self] at hsp
    simp at hsp
  · rename_i pre post hsp
    rw [split2_self] at hsp
    simp only [Option.some.injEq, Prod.mk.injEq] at hsp
    obtain ⟨h1, h2⟩ := hsp
    subst h1; subst h2
    split
    · rename_i hcl
      rw [goodName_split2_close n hn '/' (by decide) rest] at hcl
      simp at hcl
    · rename_i tagRaw rest2 hcl
      rw [goodName_split2_close n hn '/' (by decide) rest] at hcl
      simp only [Option.some.injEq, Prod.mk.injEq] at hcl
      obtain ⟨h3, h4⟩ := hcl
      subst h3; subst h4
      split
      · rename_i htc
        rw [trimChars_marker '/' n rfl hn] at htc
        simp at htc
      · rename_i m body htc
        rw [trimChars_marker '/' n rfl hn] at htc
        injection htc with h5 h6
        subst h5; subst h6
        rw [if_neg (by decide), if_neg (by decide), if_pos rfl]
        rw [trimChars_of_noWs n (goodName_noWs hn)]
        cases frames with
        | nil => rw [pushPre_nil]
        | cons fr fs =>
          obtain ⟨nm, inv, toks⟩ := fr
          rw [pushPre_nil]

/-- One scanning step over a variable tag at the head of input: the tag is
terminated by the first closer after its opener — an intervening opener
inside the tag is not an error and becomes part of the variable name. -/
theorem parseLoop_variable_step (f : Nat) (content rest : List Char)
    (acc : List Token) (frames : List Frame)
    (hcontent : ∀ c ∈ content, ¬ c = '\x7d')
    (m : Char) (body : List Char) (htrim : trimChars content = m :: body)
    (hm1 : ¬ m = '#') (hm2 : ¬ m = '^') (hm3 : ¬ m = '/') :
    parseLoop (f + 1) ('\x7b' :: '\x7b' :: (content ++ '\x7d' :: '\x7d' :: rest)) acc frames =
      parseLoop f rest (pushTok (.variableToken (m :: body)) acc frames).1
        (pushTok (.variableToken (m :: body)) acc frames).2 := by
  have hclose : split2 '\x7d' '\x7d' (content ++ '\x7d' :: '\x7d' :: rest) =
      some (content, rest) := split2_append_left content rest hcontent
  rw [parseLoop_succ]
  split
  · rename_i hsp
    rw [split2_self] at hsp
    simp at hsp
  · rename_i pre post hsp
    rw [split2_self] at hsp
    simp only [Option.some.injEq, Prod.mk.injEq] at hsp
    obtain ⟨h1, h2⟩ := hsp
    subst h1; subst h2
    split
    · rename_i hcl
      rw [hclose] at hcl
      simp at hcl
    · rename_i tagRaw rest2 hcl
      rw [hclose] at hcl
      simp only [Option.some.injEq, Prod.mk.injEq] at hcl
      obtain ⟨h3, h4⟩ := hcl
      subst h3; subst h4
      split
      · rename_i htc
        rw [htrim] at htc
        simp at htc
      · rename_i m2 body2 htc
        rw [htrim] at htc
        injection htc with h5 h6
        subst h5; subst h6
        rw [if_neg hm1, if_neg hm2, if_neg hm3, pushPre_nil]

theorem parseFinish_cons (acc : List Token) (fr : Frame) (fs : List Frame) :
    parseFinish acc (fr :: fs) =
      .error (.unclosedSections (((fr :: fs).map (fun f => f.1)).reverse)) := rfl

/-- Scanning a run of opening section tags opens them all, innermost
last; the end-of-input check then reports them in opening order. -/
theorem parseLoop_templUnclosed : ∀ (names : List (List Char)) (f : Nat)
    (acc : List Token) (frames : List Frame),
    (templUnclosed names).length < f →
    (∀ n ∈ names, goodName n = true) →
    parseLoop f (templUnclosed names) acc frames =
      parseFinish acc
        ((names.reverse.map (fun n => (n, false, ([] : List Token)))) ++ frames) := by
  intro names
  induction names with
  | nil =>
    intro f acc frames hlen hgood
    rw [show templUnclosed [] = [] from rfl, parseLoop_nil]
    rfl
  | cons n ns ih =>
    intro f acc frames hlen hgood
    have hshape : templUnclosed (n :: ns) =
        '\x7b' :: '\x7b' :: ('#' :: (n ++ '\x7d' :: '\x7d' :: templUnclosed ns)) := by
      simp [templUnclosed, openSection, List.cons_append, List.append_assoc]
    cases f with
    | zero => omega
    | succ f' =>
      rw [hshape]
      have hstep := parseLoop_open_step f' false n (templUnclosed ns) acc frames
        (hgood n (by simp))
      rw [show (if (false : Bool) = true then '^' else '#') = '#' from rfl] at hstep
      rw [hstep]
      have hlen2 : (templUnclosed ns).length < f' := by
        rw [hshape] at hlen
        simp only [List.length_cons, List.length_append] at hlen
        omega
      rw [ih f' acc ((n, false, []) :: frames) hlen2
        (fun m hm => hgood m (by simp [hm]))]
      congr 1
      simp [List.reverse_cons, List.map_append, List.append_assoc]

/-! ## Equations and invariants of the renderer -/

theorem exceptBind_ok {α β : Type} (a : α) (f : α → Except Unit β) :
    ((Except.ok a : Except Unit α) >>= f) = f a := rfl

theorem tokensCost_nil : tokensCost [] = 0 := rfl

theorem tokensCost_cons (t : Token) (ts : List Token) :
    tokensCost (t :: ts) = tokenCost t + tokensCost ts := rfl

theorem tokenCost_pos (t : Token) : 1 ≤ tokenCost t := by
  cases t <;> simp [tokenCost] <;> omega

theorem render_tokens_nil (fuel : Nat) (ctx : List Value) :
    render_tokens fuel [] ctx = .ok [] := by
  cases fuel <;> rfl

theorem render_tokens_str (fuel : Nat) (s : List Char) (ts : List Token)
    (ctx : List Value) :
    render_tokens (fuel + 1) (.str s :: ts) ctx =
      (render_tokens fuel ts ctx >>= fun rest => .ok (s ++ rest)) := rfl

theorem render_tokens_var (fuel : Nat) (name : List Char) (ts : List Token)
    (ctx : List Value) :
    render_tokens (fuel + 1) (.variableToken name :: ts) ctx =
      (resolve_name name ctx >>= fun v =>
        render_tokens fuel ts ctx >>= fun rest => .ok (variableText v ++ rest)) := rfl

theorem render_tokens_sec (fuel : Nat) (name : List Char) (toks : List Token)
    (inv : Bool) (ts : List Token) (ctx : List Value) :
    render_tokens (fuel + 1) (.sectionToken name toks inv :: ts) ctx =
      (resolve_name name ctx >>= fun v =>
        sectionChunk fuel toks inv ctx v >>= fun chunk =>
          render_tokens fuel ts ctx >>= fun rest => .ok (chunk ++ rest)) := rfl

theorem sectionChunk_inverted (fuel : Nat) (toks : List Token) (ctx : List Value)
    (v : Value) :
    sectionChunk (fuel + 1) toks true ctx v =
      if !is_truthy v then render_tokens fuel toks ctx else .ok [] := rfl

theorem sectionChunk_list (fuel : Nat) (toks : List Token) (ctx : List Value)
    (xs : List Value) :
    sectionChunk (fuel + 1) toks false ctx (.list xs) =
      ((xs.mapM (fun item => render_tokens fuel toks (ctx ++ [item]))) >>=
        fun outs => .ok outs.flatten) := rfl

theorem sectionChunk_dict (fuel : Nat) (toks : List Token) (ctx : List Value)
    (es : List (List Char × Value)) :
    sectionChunk (fuel + 1) toks false ctx (.dict es) =
      render_tokens fuel toks (ctx ++ [.dict es]) := rfl

theorem sectionChunk_null (fuel : Nat) (toks : List Token) (ctx : List Value) :
    sectionChunk (fuel + 1) toks false ctx .null = .ok [] := rfl

theorem sectionChunk_bool (fuel : Nat) (toks : List Token) (ctx : List Value)
    (b : Bool) :
    sectionChunk (fuel + 1) toks false ctx (.bool b) =
      if is_truthy (.bool b) then render_tokens fuel toks (ctx ++ [.bool b])
      else .ok [] := rfl

theorem sectionChunk_int (fuel : Nat) (toks : List Token) (ctx : List Value)
    (n : Int) :
    sectionChunk (fuel + 1) toks false ctx (.int n) =
      if is_truthy (.int n) then render_tokens fuel toks (ctx ++ [.int n])
      else .ok [] := rfl

theorem sectionChunk_str (fuel : Nat) (toks : List Token) (ctx : List Value)
    (s : List Char) :
    sectionChunk (fuel + 1) toks false ctx (.str s) =
      if is_truthy (.str s) then render_tokens fuel toks (ctx ++ [.str s])
      else .ok [] := rfl

theorem sectionChunk_obj (fuel : Nat) (toks : List Token) (ctx : List Value)
    (fields : List (List Char × Value)) :
    sectionChunk (fuel + 1) toks false ctx (.obj fields) =
      render_tokens fuel toks (ctx ++ [.obj fields]) := rfl

/-- On a non-empty context stack, `resolve_name` always returns normally
(the `IndexError` branch needs an empty stack). -/
theorem resolve_name_ok (name : List Char) (ctx : List Value) (h : ctx ≠ []) :
    ∃ v, resolve_name name ctx = .ok v := by
  unfold resolve_name
  split
  · obtain ⟨v, hv⟩ : ∃ v, ctx.getLast? = some v := by
      cases hl : ctx.getLast? with
      | none => exact absurd (List.getLast?_eq_none_iff.mp hl) h
      | some v => exact ⟨v, rfl⟩
    rw [hv]
    exact ⟨v, rfl⟩
  · exact ⟨_, rfl⟩

/-- All the elementwise renders of a list section succeed, so the
traversal does. -/
theorem mapM_ok {g : Value → Except Unit (List Char)} : ∀ (xs : List Value),
    (∀ x ∈ xs, ∃ o, g x = .ok o) → ∃ outs, xs.mapM g = .ok outs := by
  intro xs
  induction xs with
  | nil => intro _; exact ⟨[], rfl⟩
  | cons x xs ih =>
    intro h
    obtain ⟨o, ho⟩ := h x (by simp)
    obtain ⟨outs, houts⟩ := ih (fun y hy => h y (by simp [hy]))
    refine ⟨o :: outs, ?_⟩
    rw [List.mapM_cons, ho, houts]
    rfl

/-- With enough fuel and totality of the child renders, a section chunk
always succeeds. -/
theorem sectionChunk_total (fuel : Nat) (toks : List Token) (inv : Bool)
    (ctx : List Value) (v : Value) (hne : ctx ≠ [])
    (htot : ∀ ctx', ctx' ≠ [] → ∃ s, render_tokens fuel toks ctx' = .ok s) :
    ∃ chunk, sectionChunk (fuel + 1) toks inv ctx v = .ok chunk := by
  cases inv with
  | true =>
    rw [sectionChunk_inverted]
    cases htr : is_truthy v with
    | true => exact ⟨[], rfl⟩
    | false =>
      obtain ⟨s, hs⟩ := htot ctx hne
      exact ⟨s, hs⟩
  | false =>
    cases v with
    | list xs =>
      obtain ⟨outs, houts⟩ := mapM_ok xs (fun x _ => htot (ctx ++ [x]) (by simp))
      exact ⟨outs.flatten, by rw [sectionChunk_list, houts, exceptBind_ok]⟩
    | dict es =>
      obtain ⟨s, hs⟩ := htot (ctx ++ [.dict es]) (by simp)
      exact ⟨s, by rw [sectionChunk_dict]; exact hs⟩
    | null => exact ⟨[], sectionChunk_null fuel toks ctx⟩
    | bool b =>
      rw [sectionChunk_bool]
      cases htr : is_truthy (Value.bool b) with
      | true =>
        obtain ⟨s, hs⟩ := htot (ctx ++ [Value.bool b]) (by simp)
        exact ⟨s, hs⟩
      | false => exact ⟨[], rfl⟩
    | int n =>
      rw [sectionChunk_int]
      cases htr : is_truthy (Value.int n) with
      | true =>
        obtain ⟨s, hs⟩ := htot (ctx ++ [Value.int n]) (by simp)
        exact ⟨s, hs⟩
      | false => exact ⟨[], rfl⟩
    | str s2 =>
      rw [sectionChunk_str]
      cases htr : is_truthy (Value.str s2) with
      | true =>
        obtain ⟨s, hs⟩ := htot (ctx ++ [Value.str s2]) (by simp)
        exact ⟨s, hs⟩
      | false => exact ⟨[], rfl⟩
    | obj fields =>
      obtain ⟨s, hs⟩ := htot (ctx ++ [Value.obj fields]) (by simp)
      exact ⟨s, by rw [sectionChunk_obj]; exact hs⟩

/-- Totality of the renderer: with a non-empty context stack and enough
fuel, `render_tokens` always produces a string. -/
theorem render_tokens_total : ∀ (fuel : Nat) (tokens : List Token)
    (ctx : List Value), tokensCost tokens < fuel → ctx ≠ [] →
    ∃ s, render_tokens fuel tokens ctx = .ok s := by
  intro fuel
  induction fuel using Nat.strong_induction_on with
  | _ fuel ih =>
    intro tokens ctx hcost hne
    cases tokens with
    | nil => exact ⟨[], render_tokens_nil _ _⟩
    | cons t ts =>
      cases fuel with
      | zero => omega
      | succ f =>
        have h1 := tokenCost_pos t
        rw [tokensCost_cons] at hcost
        have hts : tokensCost ts < f := by omega
        obtain ⟨rest, hrest⟩ := ih f (by omega) ts ctx hts hne
        cases t with
        | str s =>
          exact ⟨s ++ rest, by rw [render_tokens_str, hrest, exceptBind_ok]⟩
        | variableToken name =>
          obtain ⟨v, hv⟩ := resolve_name_ok name ctx hne
          exact ⟨variableText v ++ rest,
            by rw [render_tokens_var, hv, exceptBind_ok, hrest, exceptBind_ok]⟩
        | sectionToken name toks inv =>
          obtain ⟨v, hv⟩ := resolve_name_ok name ctx hne
          cases f with
          | zero => simp [tokenCost] at hcost
          | succ f2 =>
            have htoks : tokensCost toks < f2 := by simp [tokenCost] at hcost; omega
            obtain ⟨chunk, hchunk⟩ := sectionChunk_total f2 toks inv ctx v hne
              (fun ctx' hne' => ih f2 (by omega) toks ctx' htoks hne')
            exact ⟨chunk ++ rest, by
              rw [render_tokens_sec, hv, exceptBind_ok, hchunk, exceptBind_ok, hrest,
                exceptBind_ok]⟩

/-- The renderer's result does not depend on the fuel, as long as the fuel
is sufficient. -/
theorem render_tokens_fuelIrrel : ∀ (f g : Nat) (tokens : List Token)
    (ctx : List Value), tokensCost tokens < f → tokensCost tokens < g →
    render_tokens f tokens ctx = render_tokens g tokens ctx := by
  intro f
  induction f using Nat.strong_induction_on with
  | _ f ih =>
    intro g tokens ctx h1 h2
    cases tokens with
    | nil => rw [render_tokens_nil, render_tokens_nil]
    | cons t ts =>
      cases f with
      | zero => omega
      | succ f1 =>
        cases g with
        | zero => omega
        | succ g1 =>
          have hp := tokenCost_pos t
          rw [tokensCost_cons] at h1 h2
          have ets : render_tokens f1 ts ctx = render_tokens g1 ts ctx :=
            ih f1 (by omega) g1 ts ctx (by omega) (by omega)
          cases t with
          | str s => rw [render_tokens_str, render_tokens_str, ets]
          | variableToken name => rw [render_tokens_var, render_tokens_var, ets]
          | sectionToken name toks inv =>
            cases f1 with
            | zero => simp [tokenCost] at h1
            | succ f2 =>
              cases g1 with
              | zero => simp [tokenCost] at h2
              | succ g2 =>
                have htoks : tokensCost toks < f2 := by
                  simp [tokenCost] at h1; omega
                have htoks2 : tokensCost toks < g2 := by
                  simp [tokenCost] at h2; omega
                have echild : ∀ ctx',
                    render_tokens f2 toks ctx' = render_tokens g2 toks ctx' :=
                  fun ctx' => ih f2 (by omega) g2 toks ctx' htoks htoks2
                have echunk : ∀ v, sectionChunk (f2 + 1) toks inv ctx v =
                    sectionChunk (g2 + 1) toks inv ctx v := by
                  intro v
                  cases inv with
                  | true => rw [sectionChunk_inverted, sectionChunk_inverted, echild]
                  | false =>
                    cases v with
                    | list xs =>
                      rw [sectionChunk_list, sectionChunk_list]
                      simp only [echild]
                    | dict es => rw [sectionChunk_dict, sectionChunk_dict, echild]
                    | null => rw [sectionChunk_null, sectionChunk_null]
                    | bool b => rw [sectionChunk_bool, sectionChunk_bool, echild]
                    | int n => rw [sectionChunk_int, sectionChunk_int, echild]
                    | str s2 => rw [sectionChunk_str, sectionChunk_str, echild]
                    | obj fields => rw [sectionChunk_obj, sectionChunk_obj, echild]
                rw [render_tokens_sec, render_tokens_sec, ets]
                simp only [echunk]

/-! ## Name resolution agrees with its specification reading -/

theorem resolveLoop_eq_findSome (parts : List (List Char)) : ∀ (l : List Value),
    resolveLoop parts l = (l.findSome? (fun c => lookupPath parts c)).getD .null := by
  intro l
  induction l with
  | nil => rfl
  | cons c rest ih =>
    cases h : lookupPath parts c with
    | some v => simp [resolveLoop, List.findSome?_cons, h]
    | none => simp [resolveLoop, List.findSome?_cons, h, ih]

/-- The function `resolve_name` implements exactly the walk the specification
describes. -/
theorem resolve_name_eq_spec (name : List Char) (ctx : List Value) :
    resolve_name name ctx = resolveNameSpec name ctx := by
  unfold resolve_name resolveNameSpec
  by_cases h : name = ['.']
  · simp [h]
  · simp [h, resolveLoop_eq_findSome]

/-! ## Composition helpers for the claims -/

theorem exceptBind_err {α β : Type} (e : Unit) (f : α → Except Unit β) :
    ((Except.error e : Except Unit α) >>= f) = .error e := rfl

/-- Inverting a successful monadic traversal: one output per element, in
order, each produced by the corresponding elementwise render. -/
theorem mapM_ok_zip {g : Value → Except Unit (List Char)} : ∀ (xs : List Value)
    (outs : List (List Char)), xs.mapM g = .ok outs →
    outs.length = xs.length ∧ ∀ p ∈ xs.zip outs, g p.1 = .ok p.2 := by
  intro xs
  induction xs with
  | nil =>
    intro outs h
    rw [List.mapM_nil] at h
    injection h with h'
    subst h'
    exact ⟨rfl, by intro p hp; simp at hp⟩
  | cons x xs ih =>
    intro outs h
    rw [List.mapM_cons] at h
    cases hgx : g x with
    | error e => rw [hgx, exceptBind_err] at h; exact absurd h (by simp)
    | ok o =>
      rw [hgx, exceptBind_ok] at h
      cases hrec : xs.mapM g with
      | error e => rw [hrec, exceptBind_err] at h; exact absurd h (by simp)
      | ok os =>
        rw [hrec, exceptBind_ok] at h
        injection h with h'
        subst h'
        obtain ⟨hlen, hall⟩ := ih os hrec
        refine ⟨by simp [hlen], ?_⟩
        intro p hp
        rw [List.zip_cons_cons] at hp
        rcases List.mem_cons.mp hp with h | h
        · rw [h]; exact hgx
        · exact hall p h

/-- Rendering a token list is rendering its head with the same stack,
then its tail with the same stack, concatenated: an instruction never
affects its siblings' context. -/
theorem render_tokens_cons_split (fuel : Nat) (tok : Token) (ts : List Token)
    (ctx : List Value) (h : tokensCost (tok :: ts) < fuel) :
    render_tokens fuel (tok :: ts) ctx =
      (render_tokens fuel [tok] ctx >>= fun c =>
        render_tokens fuel ts ctx >>= fun r => .ok (c ++ r)) := by
  cases fuel with
  | zero => have := tokenCost_pos tok; rw [tokensCost_cons] at h; omega
  | succ f =>
    have hp := tokenCost_pos tok
    rw [tokensCost_cons] at h
    have hts : tokensCost ts < f := by omega
    have ets : render_tokens (f + 1) ts ctx = render_tokens f ts ctx :=
      render_tokens_fuelIrrel _ _ ts ctx (by omega) hts
    cases tok with
    | str s =>
      rw [render_tokens_str, render_tokens_str, render_tokens_nil, exceptBind_ok,
        ets]
      cases hr : render_tokens f ts ctx with
      | error e => rfl
      | ok r => simp; try rfl
    | variableToken name =>
      rw [render_tokens_var, render_tokens_var, render_tokens_nil, ets]
      cases hv : resolve_name name ctx with
      | error e => rfl
      | ok v =>
        simp only [exceptBind_ok]
        cases hr : render_tokens f ts ctx with
        | error e => rfl
        | ok r => simp [exceptBind_ok]
    | sectionToken name toks inv =>
      rw [render_tokens_sec, render_tokens_sec, render_tokens_nil, ets]
      cases hv : resolve_name name ctx with
      | error e => rfl
      | ok v =>
        simp only [exceptBind_ok]
        cases hch : sectionChunk f toks inv ctx v with
        | error e => rfl
        | ok chunk =>
          simp only [exceptBind_ok]
          cases hr : render_tokens f ts ctx with
          | error e => rfl
          | ok r => simp [exceptBind_ok]

/-- A non-`None` resolved value is converted to text and escaped. -/
theorem variableText_ne_null (v : Value) (h : v ≠ .null) :
    variableText v = escape (pyStr v) := by
  cases v with
  | null => exact absurd rfl h
  | bool b => rfl
  | int n => rfl
  | str s => rfl
  | list xs => rfl
  | dict es => rfl
  | obj fields => rfl

/-- Unfolding `render` in terms of parse result and renderer run. -/
theorem render_result (template : List Char) (data : List (List Char × Value))
    (toks : List Token) (hp : parse_template template = .ok toks) :
    render template data =
      match render_tokens (tokensCost toks + 1) toks [Value.dict data] with
      | .ok s => .ok s
      | .error _ => .error .indexError := by
  unfold render
  split
  · rename_i e heq; rw [hp] at heq; exact absurd heq (by simp)
  · rename_i toks' heq
    rw [hp] at heq
    injection heq with h
    subst h
    rfl

/-- A template with no opener parses to (at most) one literal token. -/
theorem parse_literal (t : List Char) (hne : t ≠ [])
    (h1 : hasPat '\x7b' '\x7b' t = false) : parse_template t = .ok [.str t] := by
  unfold parse_template
  cases t with
  | nil => exact absurd rfl hne
  | cons c w =>
    rw [parseLoop_succ]
    split
    · rfl
    · rename_i pre post hsp
      rw [split2_eq_none_iff.mpr h1] at hsp
      exact absurd hsp (by simp)

/-! ## Claim theorems -/

/-- Claim C1, counterexample: the claim asserts `is_truthy` maps every
non-boolean numeric value, including zero, to `true`; in the code the
catch-all branch is Python's native `bool(value)`, so numeric zero is
falsy. -/
theorem is_truthy_zero_counterexample : is_truthy (Value.int 0) = false := rfl

/-- Claim C1 (amended): the truthiness policy satisfies: missing/null is
false; boolean values evaluate to themselves; an empty sequence, empty
mapping, or empty text is false and a non-empty one is true; every other
value follows the host language's native truthiness — a number is true
exactly when it is non-zero (zero is false), and an opaque structured
object is true. -/
theorem is_truthy_characterization :
    is_truthy .null = false ∧
    (∀ b, is_truthy (.bool b) = b) ∧
    (∀ xs, is_truthy (.list xs) = true ↔ xs ≠ []) ∧
    (∀ es, is_truthy (.dict es) = true ↔ es ≠ []) ∧
    (∀ s, is_truthy (.str s) = true ↔ s ≠ []) ∧
    (∀ n : Int, is_truthy (.int n) = true ↔ n ≠ 0) ∧
    (∀ fields, is_truthy (.obj fields) = true) := by
  refine ⟨rfl, fun b => by cases b <;> rfl, ?_, ?_, ?_, ?_, fun _ => rfl⟩
  · intro xs
    simp [is_truthy, List.length_pos]
  · intro es
    simp [is_truthy, List.length_pos]
  · intro s
    simp [is_truthy, List.length_pos]
  · intro n
    simp [is_truthy]

/-- Claim C2: rendering is total — for every instruction tree produced by
a successful parse and every root data mapping, `render` returns a text
result and never raises; a name resolving to "not found" (`None`)
contributes empty output.  (The `TypeError` guard for unknown token kinds
has no counterpart in the embedding: the closed `Token` variant is
exactly the set of parser outputs.) -/
theorem render_total :
    (∀ template data toks, parse_template template = .ok toks →
      ∃ s, render template data = .ok s) ∧
    (∀ fuel name ctx, resolve_name name ctx = .ok .null →
      render_tokens (fuel + 1) [.variableToken name] ctx = .ok []) := by
  constructor
  · intro template data toks hp
    obtain ⟨s, hs⟩ := render_tokens_total (tokensCost toks + 1) toks
      [Value.dict data] (by omega) (by simp)
    exact ⟨s, by rw [render_result template data toks hp, hs]⟩
  · intro fuel name ctx hv
    rw [render_tokens_var, hv, exceptBind_ok, render_tokens_nil, exceptBind_ok]
    rfl

/-- Claim C2, witness: the spec's example — an unresolvable name renders
without error. -/
theorem render_total_witness :
    ∃ s, render "\x7b\x7bmissing\x7d\x7d".data [] = .ok s :=
  render_total.1 "\x7b\x7bmissing\x7d\x7d".data []
    [.variableToken "missing".data] rfl

/-- Claim C4: name resolution splits on `.`, walks the context stack from
innermost to outermost, resolves the entire segment path from each
candidate (mapping key lookup or named-member lookup on a structured
non-primitive value), returns the first full match, and `None` when no
context resolves the path; a name that is exactly `.` yields the
innermost context with no path lookup. -/
theorem resolve_name_follows_spec :
    (∀ name ctx, resolve_name name ctx = resolveNameSpec name ctx) ∧
    (∀ ctx v, resolve_name ['.'] (ctx ++ [v]) = .ok v) := by
  constructor
  · exact resolve_name_eq_spec
  · intro ctx v
    unfold resolve_name
    rw [if_pos rfl, List.getLast?_concat]

/-- Claim C6: every resolved variable value other than "not found" is
converted to its textual form and HTML-escaped before being appended;
the escape set covers `&`, `<`, `>`, `"` and `'`; the context
`(v : "<b>")` with template `(v)` renders the escaped entities. -/
theorem variable_escaping :
    (∀ (fuel : Nat) (name : List Char) (ctx : List Value) (v : Value),
      resolve_name name ctx = .ok v → v ≠ .null →
      render_tokens (fuel + 1) [.variableToken name] ctx = .ok (escape (pyStr v))) ∧
    escapeChar '&' = "&amp;".data ∧ escapeChar '<' = "&lt;".data ∧
    escapeChar '>' = "&gt;".data ∧ escapeChar '"' = "&quot;".data ∧
    escapeChar '\'' = "&#x27;".data ∧
    render "\x7b\x7bv\x7d\x7d".data [("v".data, .str "<b>".data)] =
      .ok "&lt;b&gt;".data := by
  refine ⟨?_, rfl, rfl, rfl, rfl, rfl, rfl⟩
  intro fuel name ctx v hv hnull
  rw [render_tokens_var, hv, exceptBind_ok, render_tokens_nil, exceptBind_ok,
    variableText_ne_null v hnull]
  simp

/-- Claim C6, witness: the general escaping statement at the spec's
example input. -/
theorem variable_escaping_witness :
    render_tokens 1 [.variableToken "v".data]
      [Value.dict [("v".data, Value.str "<b>".data)]] =
      .ok (escape (pyStr (Value.str "<b>".data))) :=
  variable_escaping.1 0 "v".data [Value.dict [("v".data, Value.str "<b>".data)]]
    (Value.str "<b>".data) rfl (by simp)

/-- Claim C7: parse-then-render is the identity on templates containing
neither delimiter: for every such template and every root data mapping,
`render (parse t)` returns `t` itself. -/
theorem literal_identity :
    ∀ (t : List Char) (data : List (List Char × Value)),
      hasPat '\x7b' '\x7b' t = false → hasPat '\x7d' '\x7d' t = false →
      render t data = .ok t := by
  intro t data h1 h2
  cases t with
  | nil => rfl
  | cons c w =>
    have hp := parse_literal (c :: w) (by simp) h1
    rw [render_result (c :: w) data [Token.str (c :: w)] hp]
    have hr : render_tokens (tokensCost [Token.str (c :: w)] + 1)
        [Token.str (c :: w)] [Value.dict data] = .ok (c :: w) := by
      rw [render_tokens_str, render_tokens_nil, exceptBind_ok]
      simp
    rw [hr]

/-- Claim C7, witness: a concrete literal template round-trips. -/
theorem literal_identity_witness :
    render "hello, world!\n".data [] = .ok "hello, world!\n".data :=
  literal_identity "hello, world!\n".data [] rfl rfl

/-- Opening one section and then closing a differently-named one is a
fatal mismatched-closing error, whatever follows. -/
theorem parseLoop_mismatch_pair (f : Nat) (a b rest : List Char) (acc : List Token)
    (hga : goodName a = true) (hgb : goodName b = true) (hne : ¬ a = b) :
    parseLoop (f + 1 + 1)
      ('\x7b' :: '\x7b' :: '#' ::(a ++ '\x7d' :: '\x7d' ::
        ('\x7b' :: '\x7b' :: '/' ::(b ++ '\x7d' :: '\x7d' ::rest)))) acc [] =
      .error (.mismatchedClosing b) := by
  have hstep := parseLoop_open_step (f + 1) false a
    ('\x7b' :: '\x7b' :: '/' ::(b ++ '\x7d' :: '\x7d' ::rest)) acc [] hga
  rw [show (if (false : Bool) = true then '^' else '#') = '#' from rfl] at hstep
  rw [hstep]
  rw [parseLoop_close_step f b rest acc [(a, false, [])] hgb]
  simp [hne]

theorem tagScanOk_nil (fuel : Nat) (stack : List (List Char)) :
    tagScanOk fuel [] stack = stack.isEmpty := by
  cases fuel <;> rfl

/-- Unfolding `tagScanOk` one step on a non-empty remainder. -/
theorem tagScanOk_succ (fuel : Nat) (c : Char) (w : List Char)
    (stack : List (List Char)) :
    tagScanOk (fuel + 1) (c :: w) stack =
      match split2 '\x7b' '\x7b' (c :: w) with
      | none => stack.isEmpty
      | some (_, post) =>
        match split2 '\x7d' '\x7d' post with
        | none => false
        | some (tagRaw, rest) =>
          match trimChars tagRaw with
          | [] => tagScanOk fuel rest stack
          | m :: body =>
            if m = '#' then tagScanOk fuel rest (trimChars body :: stack)
            else if m = '^' then tagScanOk fuel rest (trimChars body :: stack)
            else if m = '/' then
              match stack with
              | [] => false
              | n :: ns => if n = trimChars body then tagScanOk fuel rest ns else false
            else tagScanOk fuel rest stack := rfl

/-- Appending a finished token never changes the spine of open frames. -/
theorem pushTok_snd_map (tok : Token) (acc : List Token) (frames : List Frame) :
    (pushTok tok acc frames).2.map (fun f => f.1) = frames.map (fun f => f.1) := by
  cases frames with
  | nil => rfl
  | cons fr fs =>
    obtain ⟨n, inv, toks⟩ := fr
    rfl

theorem pushPre_snd_map (pre : List Char) (acc : List Token) (frames : List Frame) :
    (pushPre pre acc frames).2.map (fun f => f.1) = frames.map (fun f => f.1) := by
  unfold pushPre
  split
  · rfl
  · exact pushTok_snd_map _ _ _

theorem pushTok_snd_nil_iff (tok : Token) (acc : List Token) (frames : List Frame) :
    (pushTok tok acc frames).2 = [] ↔ frames = [] := by
  cases frames with
  | nil => simp [pushTok]
  | cons fr fs =>
    obtain ⟨n, inv, toks⟩ := fr
    simp [pushTok]

/-- The finish step succeeds exactly when no section is still open. -/
theorem parseFinish_ok_iff (acc : List Token) (frames : List Frame) :
    (∃ toks, parseFinish acc frames = .ok toks) ↔ frames = [] := by
  cases frames with
  | nil => exact ⟨fun _ => rfl, fun _ => ⟨acc, rfl⟩⟩
  | cons fr fs => simp [parseFinish]

theorem isEmpty_map_fst (frames : List Frame) :
    ((frames.map (fun f => f.1)).isEmpty = true) ↔ frames = [] := by
  cases frames <;> simp

/-- The scanning loop produces an instruction tree exactly when the
tag-discipline check passes on the stack of currently open section
names. -/
theorem parseLoop_ok_iff_tagScanOk : ∀ (fuel : Nat) (rem : List Char)
    (acc : List Token) (frames : List Frame) (stack : List (List Char)),
    stack = frames.map (fun f => f.1) → rem.length < fuel →
    ((∃ toks, parseLoop fuel rem acc frames = .ok toks) ↔
      tagScanOk fuel rem stack = true) := by
  intro fuel
  induction fuel with
  | zero => intro rem acc frames stack hstack hlen; omega
  | succ f ih =>
    intro rem acc frames stack hstack hlen
    cases rem with
    | nil =>
      rw [parseLoop_nil, tagScanOk_nil, parseFinish_ok_iff, hstack,
        isEmpty_map_fst]
    | cons c w =>
      rw [parseLoop_succ, tagScanOk_succ]
      split
      · rw [parseFinish_ok_iff, pushTok_snd_nil_iff, hstack, isEmpty_map_fst]
      · rename_i pre post hsp
        split
        · simp
        · rename_i tagRaw rest hcl
          have hlen2 : rest.length < f := by
            have := parse_step_length hsp hcl
            simp only [List.length_cons] at this hlen
            omega
          split
          · exact ih rest _ _ stack (by simp [pushPre_snd_map, hstack]) hlen2
          · rename_i m body htc
            by_cases hm1 : m = '#'
            · rw [if_pos hm1, if_pos hm1]
              exact ih rest _ _ (trimChars body :: stack)
                (by simp [pushPre_snd_map, hstack]) hlen2
            · rw [if_neg hm1, if_neg hm1]
              by_cases hm2 : m = '^'
              · rw [if_pos hm2, if_pos hm2]
                exact ih rest _ _ (trimChars body :: stack)
                  (by simp [pushPre_snd_map, hstack]) hlen2
              · rw [if_neg hm2, if_neg hm2]
                by_cases hm3 : m = '/'
                · rw [if_pos hm3, if_pos hm3]
                  cases hfr : (pushPre pre acc frames).2 with
                  | nil =>
                    have hs0 : stack = [] := by
                      rw [hstack, ← pushPre_snd_map pre acc frames, hfr,
                        List.map_nil]
                    rw [hs0]
                    simp
                  | cons fr fs =>
                    obtain ⟨n, inv, tks⟩ := fr
                    have hs1 : stack = n :: fs.map (fun f => f.1) := by
                      rw [hstack, ← pushPre_snd_map pre acc frames, hfr,
                        List.map_cons]
                    rw [hs1]
                    by_cases hn : n = trimChars body
                    · simp only [if_pos hn]
                      refine ih rest _ _ (fs.map (fun f => f.1)) ?_ hlen2
                      rw [pushTok_snd_map]
                    · simp only [if_neg hn]
                      simp
                · rw [if_neg hm3, if_neg hm3]
                  exact ih rest _ _ stack
                    (by rw [pushTok_snd_map, pushPre_snd_map]; exact hstack) hlen2

/-- Claim C3, counterexample: the claim's "fails with the unclosed-tag
error exactly when a `\x7b\x7b` marker has no following `\x7d\x7d`" is
false — this template contains such a marker, yet the scan reports the
earlier mismatched closing tag instead. -/
theorem parse_error_priority_counterexample :
    parse_template "\x7b\x7b#a\x7d\x7d\x7b\x7b/b\x7d\x7d\x7b\x7b".data =
      .error (.mismatchedClosing "b".data) ∧
    hasBadOpen "\x7b\x7b#a\x7d\x7d\x7b\x7b/b\x7d\x7d\x7b\x7b".data = true :=
  ⟨rfl, rfl⟩

/-- Claim C3 (amended): parse reports errors in scan order.  It fails
with the unclosed-tag error only if some `\x7b\x7b` marker has no
following `\x7d\x7d`; a template containing such a marker never parses —
it fails either with the unclosed-tag error or with a mismatched-closing
error raised at an earlier stray or mismatched closing tag.  A closing
tag whose name differs from the innermost open section fails immediately,
naming that tag.  If scanning completes with sections still open, parsing
fails naming every still-open section in the order they were opened.
Otherwise parsing succeeds: parse returns an instruction tree exactly
when the tag-discipline check passes, that is, when every opener has a
following closer, every closing tag names the innermost open section,
and no section remains open once the input is exhausted. -/
theorem parse_error_characterization :
    (∀ t, parse_template t = .error .unclosedTag → hasBadOpen t = true) ∧
    (∀ t, hasBadOpen t = true →
      parse_template t = .error .unclosedTag ∨
        ∃ n, parse_template t = .error (.mismatchedClosing n)) ∧
    (∀ names, names ≠ [] → (∀ n ∈ names, goodName n = true) →
      parse_template (templUnclosed names) = .error (.unclosedSections names)) ∧
    (∀ (a b rest : List Char), goodName a = true → goodName b = true → ¬ a = b →
      parse_template ('\x7b' :: '\x7b' :: '#' ::(a ++ '\x7d' :: '\x7d' ::
        ('\x7b' :: '\x7b' :: '/' ::(b ++ '\x7d' :: '\x7d' ::rest)))) =
        .error (.mismatchedClosing b)) ∧
    (∀ t, (∃ toks, parse_template t = .ok toks) ↔ tagDisciplineOk t = true) := by
  refine ⟨?_, ?_, ?_, ?_, ?_⟩
  · intro t h
    exact parseLoop_unclosedTag_badOpen (t.length + 1) t [] [] (by omega) h
  · intro t h
    exact parseLoop_badOpen_fails (t.length + 1) t [] [] (by omega) h
  · intro names hne hgood
    cases names with
    | nil => exact absurd rfl hne
    | cons n ns =>
      have hform := parseLoop_templUnclosed (n :: ns)
        ((templUnclosed (n :: ns)).length + 1) [] [] (by omega) hgood
      rw [List.append_nil] at hform
      obtain ⟨x, as, hrev⟩ : ∃ x as, (n :: ns).reverse = x :: as := by
        cases hrev : (n :: ns).reverse with
        | nil => exact absurd hrev (by simp)
        | cons x as => exact ⟨x, as, rfl⟩
      rw [hrev] at hform
      simp only [List.map_cons] at hform
      rw [parseFinish_cons] at hform
      unfold parse_template
      rw [hform]
      have hnames : (List.map (fun f : Frame => f.1)
          ((x, false, ([] : List Token)) :: List.map (fun m => (m, false, [])) as)).reverse
          = n :: ns := by
        rw [List.map_cons, List.map_map]
        rw [show ((fun f : Frame => f.1) ∘
            (fun m : List Char => (m, false, ([] : List Token)))) =
          fun m => m from rfl]
        rw [List.map_id']
        show (x :: as).reverse = n :: ns
        rw [← hrev, List.reverse_reverse]
      rw [hnames]
  · intro a b rest hga hgb hne
    exact parseLoop_mismatch_pair _ a b rest [] hga hgb hne
  · intro t
    exact parseLoop_ok_iff_tagScanOk (t.length + 1) t [] [] [] rfl
      (Nat.lt_succ_self _)

/-- Claim C3, witness: two sections left open are reported in opening
order, and a balanced template passes the tag-discipline check and hence
parses to an instruction tree. -/
theorem parse_error_characterization_witness :
    (parse_template (templUnclosed ["a".data, "b".data]) =
      .error (.unclosedSections ["a".data, "b".data])) ∧
    (∃ toks, parse_template "\x7b\x7b#a\x7d\x7dx\x7b\x7b/a\x7d\x7d".data =
      .ok toks) :=
  ⟨parse_error_characterization.2.2.1 ["a".data, "b".data] (by simp) (by decide),
   (parse_error_characterization.2.2.2.2
      "\x7b\x7b#a\x7d\x7dx\x7b\x7b/a\x7d\x7d".data).mpr (by decide)⟩

/-- Claim C9: a closing tag encountered while no section is open fails
with the mismatched-closing error naming that tag, for any fuel, any
already-accumulated output, any opener-free literal text before it, any
well-formed name, and any remaining input; hence also through
`parse_template`. -/
theorem stray_closing_tag_mismatched :
    (∀ (f : Nat) (lit n rest : List Char) (acc : List Token),
      (∀ c ∈ lit, ¬ c = '\x7b') → goodName n = true →
      parseLoop (f + 1) (lit ++ '\x7b' :: '\x7b' :: '/' ::(n ++ '\x7d' :: '\x7d' ::rest))
        acc [] = .error (.mismatchedClosing n)) ∧
    (∀ (lit n rest : List Char),
      (∀ c ∈ lit, ¬ c = '\x7b') → goodName n = true →
      parse_template (lit ++ '\x7b' :: '\x7b' :: '/' ::(n ++ '\x7d' :: '\x7d' ::rest)) =
        .error (.mismatchedClosing n)) := by
  have hgen : ∀ (f : Nat) (lit n rest : List Char) (acc : List Token),
      (∀ c ∈ lit, ¬ c = '\x7b') → goodName n = true →
      parseLoop (f + 1) (lit ++ '\x7b' :: '\x7b' :: '/' ::(n ++ '\x7d' :: '\x7d' ::rest))
        acc [] = .error (.mismatchedClosing n) := by
    intro f lit n rest acc hlit hn
    have hne : lit ++ '\x7b' :: '\x7b' :: '/' ::(n ++ '\x7d' :: '\x7d' ::rest) ≠ [] := by
      cases lit <;> simp
    rw [parseLoop_succ' f _ hne]
    have hsp : split2 '\x7b' '\x7b'
        (lit ++ '\x7b' :: '\x7b' :: '/' ::(n ++ '\x7d' :: '\x7d' ::rest)) =
        some (lit, '/' ::(n ++ '\x7d' :: '\x7d' ::rest)) := split2_append_left lit _ hlit
    have hcl := goodName_split2_close n hn '/' (by decide) rest
    split
    · rename_i h; rw [hsp] at h; exact absurd h (by simp)
    · rename_i pre post h
      rw [hsp] at h
      simp only [Option.some.injEq, Prod.mk.injEq] at h
      obtain ⟨h1, h2⟩ := h
      subst h1; subst h2
      split
      · rename_i h; rw [hcl] at h; exact absurd h (by simp)
      · rename_i tagRaw rest2 h
        rw [hcl] at h
        simp only [Option.some.injEq, Prod.mk.injEq] at h
        obtain ⟨h3, h4⟩ := h
        subst h3; subst h4
        split
        · rename_i htc
          rw [trimChars_marker '/' n rfl hn] at htc
          exact absurd htc (by simp)
        · rename_i m body htc
          rw [trimChars_marker '/' n rfl hn] at htc
          injection htc with h5 h6
          subst h5; subst h6
          rw [if_neg (by decide : ¬ ('/' : Char) = '#'),
            if_neg (by decide : ¬ ('/' : Char) = '^'), if_pos rfl]
          split
          · rw [trimChars_of_noWs n (goodName_noWs hn)]
          · rename_i nm inv toks fs hfr
            rw [pushPre_snd_nil] at hfr
            exact absurd hfr (by simp)
  exact ⟨hgen, fun lit n rest hlit hn => hgen _ lit n rest [] hlit hn⟩

/-- Claim C9, witness: a stray closing tag after plain text. -/
theorem stray_closing_tag_mismatched_witness :
    parse_template ("x".data ++ '\x7b' :: '\x7b' :: '/' ::("a".data ++ '\x7d' :: '\x7d' ::"y".data)) =
      .error (.mismatchedClosing "a".data) :=
  stray_closing_tag_mismatched.2 "x".data "a".data "y".data (by decide) (by decide)

/-- Claim C10: a tag is terminated by the first `\x7d\x7d` after its
opener; an intervening `\x7b\x7b` inside the tag is not an error and
becomes part of the tag content — in particular `\x7b\x7ba\x7b\x7bb\x7d\x7d`
parses to a single variable named `a\x7b\x7bb`. -/
theorem variable_tag_first_close :
    (∀ (f : Nat) (content rest : List Char) (acc : List Token) (frames : List Frame)
      (m : Char) (body : List Char),
      (∀ c ∈ content, ¬ c = '\x7d') → trimChars content = m :: body →
      ¬ m = '#' → ¬ m = '^' → ¬ m = '/' →
      parseLoop (f + 1) ('\x7b' :: '\x7b' ::(content ++ '\x7d' :: '\x7d' ::rest)) acc frames =
        parseLoop f rest (pushTok (.variableToken (m :: body)) acc frames).1
          (pushTok (.variableToken (m :: body)) acc frames).2) ∧
    parse_template "\x7b\x7ba\x7b\x7bb\x7d\x7d".data =
      .ok [.variableToken "a\x7b\x7bb".data] :=
  ⟨fun f content rest acc frames m body h1 h2 h3 h4 h5 =>
    parseLoop_variable_step f content rest acc frames h1 m body h2 h3 h4 h5, rfl⟩

/-- Claim C10, witness: the general step at the example tag, whose content
contains an intervening opener. -/
theorem variable_tag_first_close_witness :
    parseLoop 1 ('\x7b' :: '\x7b' ::("a\x7b\x7bb".data ++ '\x7d' :: '\x7d' ::[])) [] [] =
      parseLoop 0 []
        (pushTok (.variableToken ('a' :: "\x7b\x7bb".data)) [] []).1
        (pushTok (.variableToken ('a' :: "\x7b\x7bb".data)) [] []).2 :=
  variable_tag_first_close.1 0 "a\x7b\x7bb".data [] [] [] 'a' "\x7b\x7bb".data
    (by decide) rfl (by decide) (by decide) (by decide)

/-- Claim C5: a non-inverted section whose name resolves to an ordered
sequence renders its children once per element in sequence order, with
that element pushed as the new innermost context for its iteration only;
an empty sequence produces no iterations and empty output.  The spec's
examples render `"xxx"` and `""`. -/
theorem list_section_iteration :
    (∀ (fuel : Nat) (name : List Char) (toks : List Token) (ctx xs : List Value),
      resolve_name name ctx = .ok (.list xs) → ctx ≠ [] → tokensCost toks < fuel →
      ∃ outs : List (List Char),
        outs.length = xs.length ∧
        (∀ p ∈ xs.zip outs, render_tokens fuel toks (ctx ++ [p.1]) = .ok p.2) ∧
        render_tokens (fuel + 1 + 1) [.sectionToken name toks false] ctx =
          .ok outs.flatten) ∧
    render "\x7b\x7b#items\x7d\x7dx\x7b\x7b/items\x7d\x7d".data
      [("items".data, .list [.int 1, .int 2, .int 3])] = .ok "xxx".data ∧
    render "\x7b\x7b#items\x7d\x7dx\x7b\x7b/items\x7d\x7d".data
      [("items".data, .list [])] = .ok [] := by
  refine ⟨?_, rfl, rfl⟩
  intro fuel name toks ctx xs hv hne hcost
  obtain ⟨outs, houts⟩ := mapM_ok xs
    (fun x _ => render_tokens_total fuel toks (ctx ++ [x]) hcost (by simp))
  obtain ⟨hlen, hzip⟩ := mapM_ok_zip xs outs houts
  refine ⟨outs, hlen, hzip, ?_⟩
  rw [render_tokens_sec, hv, exceptBind_ok, sectionChunk_list, houts, exceptBind_ok,
    render_tokens_nil, exceptBind_ok]
  simp [exceptBind_ok]

/-- Claim C5, witness: the general iteration statement at a concrete
two-element list. -/
theorem list_section_iteration_witness :
    ∃ outs : List (List Char),
      outs.length = ([Value.int 1, Value.int 2] : List Value).length ∧
      (∀ p ∈ ([Value.int 1, Value.int 2] : List Value).zip outs,
        render_tokens 2 [Token.str "x".data]
          ([Value.dict [("i".data, Value.list [Value.int 1, Value.int 2])]] ++ [p.1]) =
          .ok p.2) ∧
      render_tokens (2 + 1 + 1) [.sectionToken "i".data [Token.str "x".data] false]
        [Value.dict [("i".data, Value.list [Value.int 1, Value.int 2])]] =
        .ok outs.flatten :=
  list_section_iteration.1 2 "i".data [Token.str "x".data]
    [Value.dict [("i".data, Value.list [Value.int 1, Value.int 2])]]
    [Value.int 1, Value.int 2] rfl (by simp) (by decide)

/-- Claim C8: context-stack extension is strictly local.  Rendering a
head instruction never changes the stack its siblings see; an inverted
section renders its children with the very same stack (no push); and for
a list section, each iteration renders the children with exactly one
element pushed on the caller's stack, the remaining iterations behaving
as a fresh run from the caller's stack (pushes never accumulate). -/
theorem context_stack_locality :
    (∀ (fuel : Nat) (tok : Token) (ts : List Token) (ctx : List Value),
      tokensCost (tok :: ts) < fuel →
      render_tokens fuel (tok :: ts) ctx =
        (render_tokens fuel [tok] ctx >>= fun c =>
          render_tokens fuel ts ctx >>= fun r => .ok (c ++ r))) ∧
    (∀ (fuel : Nat) (name : List Char) (toks : List Token) (ctx : List Value)
      (v : Value) (s : List Char),
      resolve_name name ctx = .ok v → is_truthy v = false →
      render_tokens fuel toks ctx = .ok s →
      render_tokens (fuel + 1 + 1) [.sectionToken name toks true] ctx = .ok s) ∧
    (∀ (fuel : Nat) (name name' : List Char) (toks : List Token) (ctx : List Value)
      (x : Value) (xs : List Value),
      resolve_name name ctx = .ok (.list (x :: xs)) →
      resolve_name name' ctx = .ok (.list xs) → ctx ≠ [] → tokensCost toks < fuel →
      ∃ a b, render_tokens fuel toks (ctx ++ [x]) = .ok a ∧
        render_tokens (fuel + 1 + 1) [.sectionToken name' toks false] ctx = .ok b ∧
        render_tokens (fuel + 1 + 1) [.sectionToken name toks false] ctx =
          .ok (a ++ b)) := by
  refine ⟨render_tokens_cons_split, ?_, ?_⟩
  · intro fuel name toks ctx v s hv htr hs
    rw [render_tokens_sec, hv, exceptBind_ok, sectionChunk_inverted, htr]
    rw [show (if (!false) = true then render_tokens fuel toks ctx
        else (Except.ok [] : Except Unit (List Char))) =
      render_tokens fuel toks ctx from rfl]
    rw [hs, exceptBind_ok, render_tokens_nil, exceptBind_ok]
    simp
  · intro fuel name name' toks ctx x xs hv hv' hne hcost
    obtain ⟨a, ha⟩ := render_tokens_total fuel toks (ctx ++ [x]) hcost (by simp)
    obtain ⟨outs, houts⟩ := mapM_ok xs
      (fun y _ => render_tokens_total fuel toks (ctx ++ [y]) hcost (by simp))
    refine ⟨a, outs.flatten, ha, ?_, ?_⟩
    · rw [render_tokens_sec, hv', exceptBind_ok, sectionChunk_list, houts,
        exceptBind_ok, render_tokens_nil, exceptBind_ok]
      simp [exceptBind_ok]
    · rw [render_tokens_sec, hv, exceptBind_ok, sectionChunk_list, List.mapM_cons,
        ha, exceptBind_ok, houts, exceptBind_ok]
      rw [show (pure (a :: outs) : Except Unit (List (List Char))) =
        Except.ok (a :: outs) from rfl, exceptBind_ok]
      rw [render_tokens_nil, exceptBind_ok]
      simp [exceptBind_ok]

/-- Claim C8, witness: the no-push conjunct at the spec's inverted-section
example. -/
theorem context_stack_locality_witness :
    render_tokens (1 + 1 + 1)
      [.sectionToken "f".data [Token.str "hidden".data] true] [Value.dict []] =
      .ok "hidden".data :=
  context_stack_locality.2.1 1 "f".data [Token.str "hidden".data] [Value.dict []]
    Value.null "hidden".data rfl rfl rfl

end WorkatoTemplate
